import Mathlib

/-!
Verification development for the distributed_cache repository (GeeCache).

The embedding below translates the Go source shallowly:

* `lru` models `geecache/lru/lru.go`: the admission-controlled eviction
  cache (`lru.Cache`) with a main LRU queue and a FIFO history queue.
  Go maps together with the `container/list` doubly linked lists are
  modelled as association lists (`List (String × _)`): the Go code keeps
  the map and the list of each queue in sync, and a Go map holds at most
  one element per key, so a single list per queue is a faithful state
  representation.  The head of `Cache.ll` is the front of the Go list
  (most recently used, `PushFront` conses); the head of
  `HistoryCache.ll` is the front of the FIFO (oldest, `PushBack`
  appends).
* Cached values are the payload strings (in the repository every stored
  `Value` is a `ByteView`/`String` wrapper around bytes); `Len()` is the
  string length.  All inputs in the claims are ASCII, where Go byte
  length and Lean character length agree.
* Go `int64`/`int` fields are modelled as `Int` (the claims never reach
  overflow magnitudes).
* The `OnEvicted` callback is modelled by an `evicted` event log: each
  callback invocation appends the evicted `(key, value)` pair.
* A Go runtime panic (nil dereference) or a divergent eviction loop
  means the call never completes; operations therefore return `Option`
  states, `none` standing for a call that does not complete.
-/

set_option autoImplicit false

namespace lru

/-- Size a (key, value) entry contributes to the byte usage of a queue:
`len(key) + value.Len()`. -/
def entrySize (key value : String) : Int :=
  (key.length : Int) + (value.length : Int)

/-- First-match association-list lookup; models indexing the Go map
(`mp[key]`), which points at the unique list element holding `key`. -/
def lookup {α : Type} : List (String × α) → String → Option α
  | [], _ => none
  | (a, v) :: rest, key => if a = key then some v else lookup rest key

/-- Remove the first entry with the given key; models `ll.Remove(ele)`
together with `delete(mp, key)` for the element the map points at. -/
def eraseKey {α : Type} : List (String × α) → String → List (String × α)
  | [], _ => []
  | (a, v) :: rest, key => if a = key then rest else (a, v) :: eraseKey rest key

/-- The keys of an association list. -/
def keysOf {α : Type} (l : List (String × α)) : List String :=
  l.map Prod.fst

/-- Total byte usage of the entries of a queue. -/
def sumSize : List (String × String) → Int
  | [] => 0
  | (a, v) :: rest => entrySize a v + sumSize rest

/-- Models `cnt[key]++` on a Go map: increment the entry, creating it
with value 1 when absent. -/
def bump : List (String × Int) → String → List (String × Int)
  | [], key => [(key, 1)]
  | (a, n) :: rest, key =>
      if a = key then (a, n + 1) :: rest else (a, n) :: bump rest key

/-- Models reading `cnt[key]` from a Go map: 0 when absent. -/
def cntGet (cnt : List (String × Int)) (key : String) : Int :=
  (lookup cnt key).getD 0

/-- The history (probation) queue of `lru.Cache`: FIFO list, per-key hit
counters, and its own byte budget.  Head of `ll` = FIFO front
(oldest). -/
structure HistoryCache where
  k : Int
  maxBytes : Int
  useBytes : Int
  ll : List (String × String)
  cnt : List (String × Int)
  deriving DecidableEq, Repr

/-- The admission-controlled eviction cache `lru.Cache`.  Head of `ll` =
most recently used.  `evicted` logs `OnEvicted` invocations in order. -/
structure Cache where
  maxBytes : Int
  useBytes : Int
  ll : List (String × String)
  historyCache : HistoryCache
  evicted : List (String × String)
  deriving DecidableEq, Repr

/-- Constructor `lru.New(maxBytes, onEvicted, k)`: both queues start empty and share
the single `maxBytes` budget parameter. -/
def New (maxBytes : Int) (k : Int) : Cache :=
  { maxBytes := maxBytes
    useBytes := 0
    ll := []
    historyCache :=
      { k := k, maxBytes := maxBytes, useBytes := 0, ll := [], cnt := [] }
    evicted := [] }

/-- Method `Cache.RemoveCacheOldest`: drop the back (least recently used) main
entry, adjust `useBytes`, fire `OnEvicted`; no-op on an empty queue. -/
def Cache.RemoveCacheOldest (c : Cache) : Cache :=
  match c.ll.getLast? with
  | none => c
  | some (a, v) =>
      { c with
          ll := c.ll.dropLast
          useBytes := c.useBytes - (entrySize a v)
          evicted := c.evicted ++ [(a, v)] }

/-- Method `Cache.RemoveHistoryCacheOldest`: drop the FIFO front of the history
queue, delete its map and counter entries, adjust `useBytes`, fire
`OnEvicted`; no-op on an empty queue. -/
def Cache.RemoveHistoryCacheOldest (c : Cache) : Cache :=
  match c.historyCache.ll with
  | [] => c
  | (a, v) :: rest =>
      { c with
          historyCache :=
            { c.historyCache with
                ll := rest
                cnt := eraseKey c.historyCache.cnt a
                useBytes := c.historyCache.useBytes - (entrySize a v) }
          evicted := c.evicted ++ [(a, v)] }

/-- The `for c.maxBytes != 0 && c.maxBytes < c.useBytes` eviction loop of
`AddToCache`, with fuel equal to the main-queue length at entry: each
productive iteration removes one entry, and once the queue is empty
`RemoveCacheOldest` is a no-op, so the Go loop would spin forever —
`none` models that divergence. -/
def evictLoopAux : Nat → Cache → Option Cache
  | 0, c =>
      if c.maxBytes ≠ 0 ∧ c.maxBytes < c.useBytes then none else some c
  | n + 1, c =>
      if c.maxBytes ≠ 0 ∧ c.maxBytes < c.useBytes then
        evictLoopAux n c.RemoveCacheOldest
      else some c

/-- Method `Cache.AddToCache`: push the entry at the main-queue front, add its
size, then evict from the back while over a nonzero budget. -/
def Cache.AddToCache (c : Cache) (key value : String) : Option Cache :=
  let c1 : Cache :=
    { c with
        ll := (key, value) :: c.ll
        useBytes := c.useBytes + entrySize key value }
  evictLoopAux c1.ll.length c1

/-- Method `Cache.Get`.  Main hit: move to front, return the value.  History
hit: increment the counter; at threshold the Go code calls
`AddToCache(key, value)` with the still-unassigned named return `value`
(a nil `Value`), so `value.Len()` dereferences nil and the call panics —
modelled as `none`; below threshold, move the entry to the FIFO back and
return its value.  Otherwise not found. -/
def Cache.Get (c : Cache) (key : String) : Option ((Option String × Bool) × Cache) :=
  match lookup c.ll key with
  | some v =>
      some ((some v, true), { c with ll := (key, v) :: eraseKey c.ll key })
  | none =>
      match lookup c.historyCache.ll key with
      | some v =>
          let cnt1 := bump c.historyCache.cnt key
          if c.historyCache.k ≤ cntGet cnt1 key then
            none
          else
            some ((some v, true),
              { c with
                  historyCache :=
                    { c.historyCache with
                        cnt := cnt1
                        ll := eraseKey c.historyCache.ll key ++ [(key, v)] } })
      | none => some ((none, false), c)

/-- The fresh-key history insert of `Cache.Add` (key in neither queue):
push the entry at the FIFO back, create its counter at 1, add its size,
then — `if`, not a loop — evict the single oldest history entry when
over a nonzero history budget. -/
def Cache.addFreshHistory (c : Cache) (key value : String) : Cache :=
  let hc1 : HistoryCache :=
    { c.historyCache with
        ll := c.historyCache.ll ++ [(key, value)]
        cnt := bump c.historyCache.cnt key
        useBytes := c.historyCache.useBytes + entrySize key value }
  let c1 : Cache := { c with historyCache := hc1 }
  if hc1.maxBytes ≠ 0 ∧ hc1.maxBytes < hc1.useBytes then
    c1.RemoveHistoryCacheOldest
  else c1

/-- The history-resident update of `Cache.Add`: increment the counter,
move the entry to the FIFO back, replace its value, adjust history
`useBytes` by the value-length delta (no eviction check). -/
def Cache.addUpdateHistory (c : Cache) (key value oldv : String) : Cache :=
  { c with
      historyCache :=
        { c.historyCache with
            cnt := bump c.historyCache.cnt key
            ll := eraseKey c.historyCache.ll key ++ [(key, value)]
            useBytes :=
              c.historyCache.useBytes
                + (value.length : Int) - (oldv.length : Int) } }

/-- The promotion block of `Cache.Add`: `AddToCache` then removal of the
entry from the history queue.  When the key is no longer in the history
map (it was just evicted as the FIFO oldest) the Go code dereferences a
nil element pointer — `none`. -/
def Cache.promote (c2 : Cache) (key value : String) : Option Cache :=
  match c2.AddToCache key value with
  | none => none
  | some c3 =>
      match lookup c3.historyCache.ll key with
      | none => none
      | some v1 =>
          some { c3 with
                   historyCache :=
                     { c3.historyCache with
                         ll := eraseKey c3.historyCache.ll key
                         useBytes :=
                           c3.historyCache.useBytes - (entrySize key v1)
                         cnt := eraseKey c3.historyCache.cnt key } }

/-- Method `Cache.Add`.  Main hit: move to front, replace the value, adjust
`useBytes` by the value-length delta (no eviction check).  Otherwise
insert into or update the history queue, then promote into the main
queue when the counter has reached `k`. -/
def Cache.Add (c : Cache) (key value : String) : Option Cache :=
  match lookup c.ll key with
  | some oldv =>
      some { c with
               ll := (key, value) :: eraseKey c.ll key
               useBytes :=
                 c.useBytes + (value.length : Int) - (oldv.length : Int) }
  | none =>
      let c2 : Cache :=
        match lookup c.historyCache.ll key with
        | none => c.addFreshHistory key value
        | some oldv => c.addUpdateHistory key value oldv
      if c2.historyCache.k ≤ cntGet c2.historyCache.cnt key then
        c2.promote key value
      else some c2

/-- Method `Cache.Len`: number of main-queue entries. -/
def Cache.Len (c : Cache) : Int :=
  (c.ll.length : Int)

/-- A single client call on the cache. -/
inductive Op where
  | add (key value : String)
  | get (key : String)
  deriving DecidableEq, Repr

/-- Apply one call; `none` when the call does not complete (Go panic or
divergent eviction loop). -/
def applyOp (c : Cache) : Op → Option Cache
  | Op.add key value => c.Add key value
  | Op.get key =>
      match c.Get key with
      | none => none
      | some (_, c1) => some c1

/-- Run a sequence of calls from a starting state. -/
def run (c : Cache) : List Op → Option Cache
  | [] => some c
  | op :: rest =>
      match applyOp c op with
      | none => none
      | some c1 => run c1 rest

/-- Guard used by the amended budget claim: no `Add` call in the
sequence targets a key resident in the main queue at the time of the
call (such calls replace in place with no eviction check). -/
def addsOkB (c : Cache) : List Op → Bool
  | [] => true
  | op :: rest =>
      (match op with
       | Op.add key _ => (lookup c.ll key).isNone
       | Op.get _ => true) &&
      (match applyOp c op with
       | none => true
       | some c1 => addsOkB c1 rest)

/-- Well-formedness of a cache state, maintained by every completed
call: per-queue key uniqueness (Go map/list synchronisation), the
counter map covering exactly the history keys, main/history key
disjointness, and byte-accounting consistency of both queues. -/
structure Wf (c : Cache) : Prop where
  mainNodup : (keysOf c.ll).Nodup
  histNodup : (keysOf c.historyCache.ll).Nodup
  cntNodup : (keysOf c.historyCache.cnt).Nodup
  cntDom : ∀ x, x ∈ keysOf c.historyCache.cnt ↔ x ∈ keysOf c.historyCache.ll
  disj : ∀ x, x ∈ keysOf c.ll → x ∉ keysOf c.historyCache.ll
  mainBytes : c.useBytes = sumSize c.ll
  histBytes : c.historyCache.useBytes = sumSize c.historyCache.ll

/-- The state reached from `New 0 2` by `Add "x" "v"`: the key sits in
the history queue with hit count 1. -/
def afterAddX : Cache :=
  { maxBytes := 0
    useBytes := 0
    ll := []
    historyCache :=
      { k := 2, maxBytes := 0, useBytes := 2
        ll := [("x", "v")], cnt := [("x", 1)] }
    evicted := [] }

/-- The state reached from `New 0 3` by `Add "y" "w"`: the key sits in
the history queue with hit count 1. -/
def afterAddY : Cache :=
  { maxBytes := 0
    useBytes := 0
    ll := []
    historyCache :=
      { k := 3, maxBytes := 0, useBytes := 2
        ll := [("y", "w")], cnt := [("y", 1)] }
    evicted := [] }

end lru

namespace geecache

/-- Type `ByteView` (`byteview.go`): immutable byte payload, modelled as the
payload string. -/
structure ByteView where
  b : String
  deriving DecidableEq, Repr

/-- Method `ByteView.Len`. -/
def ByteView.Len (v : ByteView) : Int :=
  (v.b.length : Int)

/-- Method `ByteView.ByteSlice`: a defensive copy of the payload; with immutable
Lean strings the copy is the payload itself. -/
def ByteView.ByteSlice (v : ByteView) : String :=
  v.b

/-- The lock-guarded shard `geecache.cache` (`ConcurrentCacheShard`): a
lazily constructed `lru.Cache` plus the configured byte budget.  The
mutex serialises calls and is not part of the sequential state. -/
structure cache where
  lru : Option lru.Cache
  cacheBytes : Int
  deriving DecidableEq, Repr

/-- The Go zero value of the shard struct: no `lru.Cache` constructed
yet. -/
def cache.empty (cacheBytes : Int) : cache :=
  { lru := none, cacheBytes := cacheBytes }

/-- Method `cache.add`: construct the `lru.Cache` on first use (budget
`cacheBytes`, no callback, k = 1), then delegate to `lru.Cache.Add`. -/
def cache.add (c : cache) (key : String) (value : ByteView) : Option cache :=
  let l : lru.Cache :=
    match c.lru with
    | none => lru.New c.cacheBytes 1
    | some l0 => l0
  (l.Add key value.b).map fun l1 => { c with lru := some l1 }

/-- Method `cache.get`: on an unconstructed shard return the zero `ByteView`
and `false` without constructing anything; otherwise delegate to
`lru.Cache.Get` and convert a hit back to a `ByteView`. -/
def cache.get (c : cache) (key : String) : Option ((ByteView × Bool) × cache) :=
  match c.lru with
  | none => some ((⟨""⟩, false), c)
  | some l =>
      match l.Get key with
      | none => none
      | some ((res, ok), l1) =>
          if ok then
            some ((⟨res.getD ""⟩, true), { c with lru := some l1 })
          else
            some ((⟨""⟩, false), { c with lru := some l1 })

/-- Go `strings.HasPrefix(s, pre)` on character lists (the protocol paths
are ASCII, where Go bytes and characters coincide); first argument is
the prefix. -/
def hasPre : List Char → List Char → Bool
  | [], _ => true
  | _ :: _, [] => false
  | p :: ps, s :: ss => if p = s then hasPre ps ss else false

/-- Go `strings.SplitN(s, "/", 2)` on character lists: split at the first
separator only, so the result has one part (no separator present) or
two parts. -/
def splitN2Chars : List Char → List (List Char)
  | [] => [[]]
  | ch :: rest =>
      if ch = '/' then [[], rest]
      else
        match splitN2Chars rest with
        | [] => [[ch]]
        | x :: xs => (ch :: x) :: xs

/-- Outcome of `HTTPPool.ServeHTTP` for one request, by source branch:
`panicked` models the `panic(...)` call on a path outside the base path;
`serverError` records that `http.Error(500)` runs and, lacking a
`return`, the empty body of the zero view is still written afterwards. -/
inductive ServeResult where
  | panicked (msg : String)
  | badRequest
  | groupNotFound (name : String)
  | serverError (errMsg : String) (body : String)
  | ok (body : String)
  deriving DecidableEq, Repr

/-- Method `HTTPPool.ServeHTTP` routing logic.  `getGroup` stands for the
external group registry (`GetGroup`); a group is its `Get` function
returning a view or an error.  Path slicing is by character, matching Go
byte slicing on the ASCII paths of the protocol. -/
def ServeHTTP (basePath : String)
    (getGroup : String → Option (String → Except String ByteView))
    (path : String) : ServeResult :=
  if hasPre basePath.data path.data then
    match splitN2Chars (path.data.drop basePath.data.length) with
    | [g, k] =>
        match getGroup (String.mk g) with
        | none => ServeResult.groupNotFound (String.mk g)
        | some groupGet =>
            match groupGet (String.mk k) with
            | Except.error e => ServeResult.serverError e ""
            | Except.ok view => ServeResult.ok view.ByteSlice
    | _ => ServeResult.badRequest
  else
    ServeResult.panicked ("HTTPPool seving unexcepted path: " ++ path)

/-- One hexadecimal digit, uppercase, as in Go `net/url`. -/
def hexDigit (n : Nat) : Char :=
  if n < 10 then Char.ofNat (48 + n) else Char.ofNat (65 + (n - 10))

/-- Go `url.QueryEscape` on one character: unreserved characters kept,
space becomes `+`, anything else percent-encoded.  (Go escapes per UTF-8
byte; this agrees for the ASCII inputs used here.) -/
def escapeChar (ch : Char) : String :=
  if ('A' ≤ ch ∧ ch ≤ 'Z') ∨ ('a' ≤ ch ∧ ch ≤ 'z') ∨ ('0' ≤ ch ∧ ch ≤ '9')
      ∨ ch = '-' ∨ ch = '_' ∨ ch = '.' ∨ ch = '~' then
    String.singleton ch
  else if ch = ' ' then "+"
  else
    String.mk ['%', hexDigit (ch.toNat / 16), hexDigit (ch.toNat % 16)]

/-- Go `url.QueryEscape`. -/
def QueryEscape (s : String) : String :=
  String.join (s.toList.map escapeChar)

/-- The HTTP client `httpGetter`: the base URL of the target peer. -/
structure httpGetter where
  baseURL : String
  deriving DecidableEq, Repr

/-- The request URL built by `httpGetter.Get`:
`fmt.Sprintf("%s%s%s", h.baseURL, url.QueryEscape(group),
url.QueryEscape(key))` — the two escaped segments are concatenated
directly, with no separator between them. -/
def httpGetter.requestURL (h : httpGetter) (group key : String) : String :=
  h.baseURL ++ QueryEscape group ++ QueryEscape key

/-- The request URL the specification prescribes for the remote fetch:
base URL, escaped group segment, a `/` path separator, escaped key
segment. -/
def specRequestURL (h : httpGetter) (group key : String) : String :=
  h.baseURL ++ QueryEscape group ++ "/" ++ QueryEscape key

end geecache

namespace lru

/-! Association-list lemmas used by the invariant proofs. -/

section AssocLemmas

variable {α : Type}

@[simp]
theorem keysOf_nil : keysOf ([] : List (String × α)) = [] := rfl

@[simp]
theorem keysOf_cons (a : String) (v : α) (l : List (String × α)) :
    keysOf ((a, v) :: l) = a :: keysOf l := rfl

@[simp]
theorem keysOf_append (l1 l2 : List (String × α)) :
    keysOf (l1 ++ l2) = keysOf l1 ++ keysOf l2 :=
  List.map_append _ _ _

theorem lookup_eq_none_iff (l : List (String × α)) (key : String) :
    lookup l key = none ↔ key ∉ keysOf l := by
  induction l with
  | nil => simp [lookup]
  | cons p rest ih =>
    obtain ⟨a, v⟩ := p
    by_cases h : a = key
    · subst h
      simp [lookup]
    · simp [lookup, h, ih, Ne.symm h]

theorem mem_keysOf_of_lookup {l : List (String × α)} {key : String} {v : α}
    (h : lookup l key = some v) : key ∈ keysOf l := by
  by_contra hmem
  rw [← lookup_eq_none_iff] at hmem
  rw [h] at hmem
  exact Option.noConfusion hmem

theorem lookup_of_not_mem {l : List (String × α)} {key : String}
    (h : key ∉ keysOf l) : lookup l key = none :=
  (lookup_eq_none_iff l key).mpr h

theorem lookup_append_of_none {l1 : List (String × α)} (l2 : List (String × α))
    {key : String} (h : lookup l1 key = none) :
    lookup (l1 ++ l2) key = lookup l2 key := by
  induction l1 with
  | nil => rfl
  | cons p rest ih =>
    obtain ⟨a, v⟩ := p
    by_cases ha : a = key
    · simp [lookup, ha] at h
    · simp [lookup, ha] at h ⊢
      exact ih h

@[simp]
theorem lookup_singleton (key : String) (v : α) :
    lookup [(key, v)] key = some v := by
  simp [lookup]

theorem lookup_eraseKey_ne {l : List (String × α)} {key x : String}
    (hne : x ≠ key) : lookup (eraseKey l key) x = lookup l x := by
  induction l with
  | nil => rfl
  | cons p rest ih =>
    obtain ⟨a, v⟩ := p
    simp only [eraseKey, lookup]
    by_cases ha : a = key
    · rw [if_pos ha, if_neg (by rw [ha]; exact fun hh => hne hh.symm)]
    · rw [if_neg ha]
      simp only [lookup]
      by_cases hax : a = x
      · rw [if_pos hax, if_pos hax]
      · rw [if_neg hax, if_neg hax]
        exact ih

theorem keysOf_eraseKey_subset (l : List (String × α)) (key : String) :
    keysOf (eraseKey l key) ⊆ keysOf l := by
  induction l with
  | nil => simp [eraseKey]
  | cons p rest ih =>
    obtain ⟨a, v⟩ := p
    by_cases ha : a = key
    · simp only [eraseKey, if_pos ha, keysOf_cons]
      exact fun x hx => List.mem_cons_of_mem _ hx
    · simp only [eraseKey, if_neg ha, keysOf_cons]
      exact List.cons_subset_cons a ih

theorem nodup_keysOf_eraseKey {l : List (String × α)} (key : String)
    (h : (keysOf l).Nodup) : (keysOf (eraseKey l key)).Nodup := by
  induction l with
  | nil => simp [eraseKey]
  | cons p rest ih =>
    obtain ⟨a, v⟩ := p
    simp only [keysOf_cons, List.nodup_cons] at h
    by_cases ha : a = key
    · simpa [eraseKey, ha] using h.2
    · simp only [eraseKey, if_neg ha, keysOf_cons, List.nodup_cons]
      exact ⟨fun hmem => h.1 (keysOf_eraseKey_subset rest key hmem), ih h.2⟩

theorem not_mem_keysOf_eraseKey {l : List (String × α)} {key : String}
    (h : (keysOf l).Nodup) : key ∉ keysOf (eraseKey l key) := by
  induction l with
  | nil => simp [eraseKey]
  | cons p rest ih =>
    obtain ⟨a, v⟩ := p
    simp only [keysOf_cons, List.nodup_cons] at h
    by_cases ha : a = key
    · subst ha
      simpa [eraseKey] using h.1
    · simp only [eraseKey, if_neg ha, keysOf_cons, List.mem_cons]
      push_neg
      exact ⟨fun hh => ha hh.symm, ih h.2⟩

theorem mem_keysOf_eraseKey {l : List (String × α)} {key x : String}
    (h : (keysOf l).Nodup) :
    x ∈ keysOf (eraseKey l key) ↔ x ∈ keysOf l ∧ x ≠ key := by
  constructor
  · intro hx
    refine ⟨keysOf_eraseKey_subset l key hx, ?_⟩
    rintro rfl
    exact not_mem_keysOf_eraseKey h hx
  · rintro ⟨hx, hne⟩
    induction l with
    | nil => simp at hx
    | cons p rest ih =>
      obtain ⟨a, v⟩ := p
      simp only [keysOf_cons, List.nodup_cons] at h
      simp only [keysOf_cons, List.mem_cons] at hx
      by_cases ha : a = key
      · subst ha
        rcases hx with rfl | hx
        · exact absurd rfl hne
        · simpa [eraseKey] using hx
      · simp only [eraseKey, if_neg ha, keysOf_cons, List.mem_cons]
        rcases hx with rfl | hx
        · exact Or.inl rfl
        · exact Or.inr (ih h.2 hx)

end AssocLemmas

theorem sumSize_append (l1 l2 : List (String × String)) :
    sumSize (l1 ++ l2) = sumSize l1 + sumSize l2 := by
  induction l1 with
  | nil => simp [sumSize]
  | cons p rest ih =>
    obtain ⟨a, v⟩ := p
    simp [sumSize, ih]
    ring

theorem sumSize_eraseKey {l : List (String × String)} {key v : String}
    (h : lookup l key = some v) :
    sumSize l = entrySize key v + sumSize (eraseKey l key) := by
  induction l with
  | nil => simp [lookup] at h
  | cons p rest ih =>
    obtain ⟨a, w⟩ := p
    by_cases ha : a = key
    · subst ha
      simp [lookup] at h
      subst h
      simp [eraseKey, sumSize]
    · simp only [lookup, if_neg ha] at h
      simp only [eraseKey, if_neg ha, sumSize, ih h]
      ring

theorem sumSize_dropLast {l : List (String × String)} {a v : String}
    (h : l.getLast? = some (a, v)) :
    sumSize l = sumSize l.dropLast + entrySize a v := by
  induction l with
  | nil => simp at h
  | cons p rest ih =>
    cases rest with
    | nil =>
      simp only [List.getLast?_singleton, Option.some.injEq] at h
      subst h
      simp [sumSize]
    | cons q rest2 =>
      rw [List.getLast?_cons_cons] at h
      obtain ⟨b, w⟩ := p
      have h2 := ih h
      calc sumSize ((b, w) :: q :: rest2)
          = entrySize b w + sumSize (q :: rest2) := rfl
        _ = entrySize b w + (sumSize (q :: rest2).dropLast + entrySize a v) := by
              rw [h2]
        _ = (entrySize b w + sumSize (q :: rest2).dropLast) + entrySize a v := by
              ring
        _ = sumSize (((b, w) :: q :: rest2).dropLast) + entrySize a v := by
              rw [List.dropLast_cons_of_ne_nil (List.cons_ne_nil q rest2)]
              exact rfl

theorem keysOf_bump_of_mem {cnt : List (String × Int)} {key : String}
    (h : key ∈ keysOf cnt) : keysOf (bump cnt key) = keysOf cnt := by
  induction cnt with
  | nil => simp at h
  | cons p rest ih =>
    obtain ⟨a, n⟩ := p
    by_cases ha : a = key
    · simp [bump, ha]
    · simp only [keysOf_cons, List.mem_cons] at h
      rcases h with rfl | h
      · exact absurd rfl ha
      · simp [bump, ha, ih h]

theorem keysOf_bump_of_not_mem {cnt : List (String × Int)} {key : String}
    (h : key ∉ keysOf cnt) : keysOf (bump cnt key) = keysOf cnt ++ [key] := by
  induction cnt with
  | nil => simp [bump]
  | cons p rest ih =>
    obtain ⟨a, n⟩ := p
    simp only [keysOf_cons, List.mem_cons] at h
    push_neg at h
    simp [bump, Ne.symm h.1, ih h.2]

theorem wf_New (maxB k : Int) : Wf (New maxB k) := by
  constructor <;> simp [New, keysOf, sumSize]

theorem removeCacheOldest_eq_none {c : Cache} (h : c.ll.getLast? = none) :
    c.RemoveCacheOldest = c := by
  unfold Cache.RemoveCacheOldest
  rw [h]

theorem removeCacheOldest_eq_some {c : Cache} {a v : String}
    (h : c.ll.getLast? = some (a, v)) :
    c.RemoveCacheOldest =
      { c with
          ll := c.ll.dropLast
          useBytes := c.useBytes - entrySize a v
          evicted := c.evicted ++ [(a, v)] } := by
  unfold Cache.RemoveCacheOldest
  rw [h]

theorem removeCacheOldest_spec (c : Cache) :
    (c.RemoveCacheOldest).ll <+: c.ll ∧
    (c.RemoveCacheOldest).historyCache = c.historyCache ∧
    (c.RemoveCacheOldest).maxBytes = c.maxBytes ∧
    (c.useBytes = sumSize c.ll →
      (c.RemoveCacheOldest).useBytes = sumSize (c.RemoveCacheOldest).ll) := by
  cases h : c.ll.getLast? with
  | none =>
    rw [removeCacheOldest_eq_none h]
    exact ⟨List.prefix_refl _, rfl, rfl, fun ha => ha⟩
  | some p =>
    obtain ⟨a, v⟩ := p
    rw [removeCacheOldest_eq_some h]
    refine ⟨List.dropLast_prefix c.ll, rfl, rfl, fun ha => ?_⟩
    have h2 := sumSize_dropLast h
    simp only []
    omega

theorem evictLoopAux_spec : ∀ (n : Nat) (c c' : Cache),
    evictLoopAux n c = some c' →
    c'.ll <+: c.ll ∧ c'.historyCache = c.historyCache ∧
    c'.maxBytes = c.maxBytes ∧
    (c.useBytes = sumSize c.ll → c'.useBytes = sumSize c'.ll) ∧
    ¬(c'.maxBytes ≠ 0 ∧ c'.maxBytes < c'.useBytes) := by
  intro n
  induction n with
  | zero =>
    intro c c' h
    simp only [evictLoopAux] at h
    by_cases hc : c.maxBytes ≠ 0 ∧ c.maxBytes < c.useBytes
    · rw [if_pos hc] at h
      exact absurd h (by simp)
    · rw [if_neg hc] at h
      injection h with h
      subst h
      exact ⟨List.prefix_refl _, rfl, rfl, fun ha => ha, hc⟩
  | succ n ih =>
    intro c c' h
    simp only [evictLoopAux] at h
    by_cases hc : c.maxBytes ≠ 0 ∧ c.maxBytes < c.useBytes
    · rw [if_pos hc] at h
      obtain ⟨hpre, hhist, hmax, hacc, hend⟩ := ih _ _ h
      obtain ⟨rpre, rhist, rmax, racc⟩ := removeCacheOldest_spec c
      exact ⟨hpre.trans rpre, hhist.trans rhist, hmax.trans rmax,
        fun ha => hacc (racc ha), hend⟩
    · rw [if_neg hc] at h
      injection h with h
      subst h
      exact ⟨List.prefix_refl _, rfl, rfl, fun ha => ha, hc⟩

theorem evictLoopAux_isSome : ∀ (n : Nat) (c : Cache),
    c.useBytes = sumSize c.ll → 0 < c.maxBytes → c.ll.length ≤ n →
    ∃ c', evictLoopAux n c = some c' := by
  intro n
  induction n with
  | zero =>
    intro c hacc hmax hlen
    have hnil : c.ll = [] := List.length_eq_zero.mp (Nat.le_zero.mp hlen)
    have huse : c.useBytes = 0 := by rw [hacc, hnil]; rfl
    refine ⟨c, ?_⟩
    simp only [evictLoopAux]
    rw [if_neg]
    rintro ⟨h0, hlt⟩
    rw [huse] at hlt
    omega
  | succ n ih =>
    intro c hacc hmax hlen
    by_cases hc : c.maxBytes ≠ 0 ∧ c.maxBytes < c.useBytes
    · have hne : c.ll ≠ [] := by
        intro hnil
        have huse : c.useBytes = 0 := by rw [hacc, hnil]; rfl
        have := hc.2
        omega
      obtain ⟨p, hp⟩ : ∃ p, c.ll.getLast? = some p := by
        cases hg : c.ll.getLast? with
        | none => exact absurd (List.getLast?_eq_none_iff.mp hg) hne
        | some p => exact ⟨p, rfl⟩
      obtain ⟨a, v⟩ := p
      have e := removeCacheOldest_eq_some hp
      have hacc2 : (c.RemoveCacheOldest).useBytes = sumSize (c.RemoveCacheOldest).ll := by
        rw [e]
        simp only []
        rw [hacc, sumSize_dropLast hp]
        ring
      have hmax2 : 0 < (c.RemoveCacheOldest).maxBytes := by rw [e]; exact hmax
      have hlen2 : (c.RemoveCacheOldest).ll.length ≤ n := by
        rw [e]
        simp only [List.length_dropLast]
        omega
      obtain ⟨c', hc'⟩ := ih _ hacc2 hmax2 hlen2
      refine ⟨c', ?_⟩
      simp only [evictLoopAux]
      rw [if_pos hc]
      exact hc'
    · refine ⟨c, ?_⟩
      simp only [evictLoopAux]
      rw [if_neg hc]

theorem addToCache_spec {c : Cache} {key value : String} {c3 : Cache}
    (h : c.AddToCache key value = some c3) :
    c3.ll <+: (key, value) :: c.ll ∧ c3.historyCache = c.historyCache ∧
    c3.maxBytes = c.maxBytes ∧
    (c.useBytes = sumSize c.ll → c3.useBytes = sumSize c3.ll) ∧
    ¬(c3.maxBytes ≠ 0 ∧ c3.maxBytes < c3.useBytes) := by
  simp only [Cache.AddToCache] at h
  obtain ⟨hpre, hhist, hmax, hacc, hend⟩ := evictLoopAux_spec _ _ _ h
  refine ⟨hpre, hhist, hmax, fun ha => hacc ?_, hend⟩
  show c.useBytes + entrySize key value = sumSize ((key, value) :: c.ll)
  rw [ha]
  simp only [sumSize]
  ring

theorem addToCache_isSome (c : Cache) (key value : String)
    (hacc : c.useBytes = sumSize c.ll) (hmax : 0 < c.maxBytes) :
    ∃ c3, c.AddToCache key value = some c3 := by
  simp only [Cache.AddToCache]
  apply evictLoopAux_isSome
  · show c.useBytes + entrySize key value = sumSize ((key, value) :: c.ll)
    rw [hacc]
    simp only [sumSize]
    ring
  · exact hmax
  · exact le_refl _

theorem removeHistoryCacheOldest_eq_nil {c : Cache} (h : c.historyCache.ll = []) :
    c.RemoveHistoryCacheOldest = c := by
  unfold Cache.RemoveHistoryCacheOldest
  rw [h]

theorem removeHistoryCacheOldest_eq_cons {c : Cache} {a v : String}
    {rest : List (String × String)} (h : c.historyCache.ll = (a, v) :: rest) :
    c.RemoveHistoryCacheOldest =
      { c with
          historyCache :=
            { c.historyCache with
                ll := rest
                cnt := eraseKey c.historyCache.cnt a
                useBytes := c.historyCache.useBytes - (entrySize a v) }
          evicted := c.evicted ++ [(a, v)] } := by
  unfold Cache.RemoveHistoryCacheOldest
  rw [h]

theorem removeHistoryCacheOldest_main (c : Cache) :
    (c.RemoveHistoryCacheOldest).ll = c.ll ∧
    (c.RemoveHistoryCacheOldest).useBytes = c.useBytes ∧
    (c.RemoveHistoryCacheOldest).maxBytes = c.maxBytes ∧
    (c.RemoveHistoryCacheOldest).historyCache.k = c.historyCache.k := by
  cases h : c.historyCache.ll with
  | nil =>
    rw [removeHistoryCacheOldest_eq_nil h]
    exact ⟨rfl, rfl, rfl, rfl⟩
  | cons p rest =>
    obtain ⟨a, v⟩ := p
    rw [removeHistoryCacheOldest_eq_cons h]
    exact ⟨rfl, rfl, rfl, rfl⟩

theorem Wf.removeHist {c : Cache} (hwf : Wf c) :
    Wf (c.RemoveHistoryCacheOldest) := by
  cases h : c.historyCache.ll with
  | nil =>
    rw [removeHistoryCacheOldest_eq_nil h]
    exact hwf
  | cons p rest =>
    obtain ⟨a, v⟩ := p
    have hnodup := hwf.histNodup
    rw [h] at hnodup
    simp only [keysOf_cons, List.nodup_cons] at hnodup
    rw [removeHistoryCacheOldest_eq_cons h]
    constructor
    · exact hwf.mainNodup
    · exact hnodup.2
    · exact nodup_keysOf_eraseKey a hwf.cntNodup
    · intro x
      rw [mem_keysOf_eraseKey hwf.cntNodup, hwf.cntDom x, h]
      simp only [keysOf_cons, List.mem_cons]
      constructor
      · rintro ⟨rfl | hx, hne⟩
        · exact absurd rfl hne
        · exact hx
      · intro hx
        exact ⟨Or.inr hx, fun he => hnodup.1 (he ▸ hx)⟩
    · intro x hx
      have := hwf.disj x hx
      rw [h] at this
      simp only [keysOf_cons, List.mem_cons] at this
      push_neg at this
      exact this.2
    · exact hwf.mainBytes
    · have hb := hwf.histBytes
      rw [h] at hb
      simp only [sumSize] at hb
      simp only []
      omega

theorem addFreshHistory_main (c : Cache) (key value : String) :
    (c.addFreshHistory key value).ll = c.ll ∧
    (c.addFreshHistory key value).useBytes = c.useBytes ∧
    (c.addFreshHistory key value).maxBytes = c.maxBytes ∧
    (c.addFreshHistory key value).historyCache.k = c.historyCache.k := by
  simp only [Cache.addFreshHistory]
  split
  · obtain ⟨h1, h2, h3, h4⟩ := removeHistoryCacheOldest_main _
    exact ⟨h1, h2, h3, h4⟩
  · exact ⟨rfl, rfl, rfl, rfl⟩

theorem wf_addFreshHistory {c : Cache} {key value : String}
    (hwf : Wf c) (hmain : lookup c.ll key = none)
    (hhist : lookup c.historyCache.ll key = none) :
    Wf (c.addFreshHistory key value) := by
  have hkm : key ∉ keysOf c.ll := (lookup_eq_none_iff _ _).mp hmain
  have hkh : key ∉ keysOf c.historyCache.ll := (lookup_eq_none_iff _ _).mp hhist
  have hkc : key ∉ keysOf c.historyCache.cnt := fun hx => hkh ((hwf.cntDom key).mp hx)
  have hwf1 :
      Wf { c with
             historyCache :=
               { c.historyCache with
                   ll := c.historyCache.ll ++ [(key, value)]
                   cnt := bump c.historyCache.cnt key
                   useBytes := c.historyCache.useBytes + entrySize key value } } := by
    constructor
    · exact hwf.mainNodup
    · show (keysOf (c.historyCache.ll ++ [(key, value)])).Nodup
      rw [keysOf_append, List.nodup_append]
      refine ⟨hwf.histNodup, List.nodup_singleton _, ?_⟩
      intro x hx hx2
      simp only [keysOf_cons, keysOf_nil, List.mem_singleton] at hx2
      subst hx2
      exact hkh hx
    · show (keysOf (bump c.historyCache.cnt key)).Nodup
      rw [keysOf_bump_of_not_mem hkc, List.nodup_append]
      refine ⟨hwf.cntNodup, List.nodup_singleton _, ?_⟩
      intro x hx hx2
      rw [List.mem_singleton] at hx2
      subst hx2
      exact hkc hx
    · intro x
      show x ∈ keysOf (bump c.historyCache.cnt key) ↔
        x ∈ keysOf (c.historyCache.ll ++ [(key, value)])
      rw [keysOf_bump_of_not_mem hkc, keysOf_append]
      simp only [List.mem_append, keysOf_cons, keysOf_nil, List.mem_singleton]
      exact or_congr (hwf.cntDom x) Iff.rfl
    · intro x hx
      show x ∉ keysOf (c.historyCache.ll ++ [(key, value)])
      rw [keysOf_append]
      simp only [List.mem_append, keysOf_cons, keysOf_nil, List.mem_singleton]
      push_neg
      exact ⟨hwf.disj x hx, fun he => hkm (he ▸ hx)⟩
    · exact hwf.mainBytes
    · show c.historyCache.useBytes + entrySize key value =
        sumSize (c.historyCache.ll ++ [(key, value)])
      rw [sumSize_append, hwf.histBytes]
      simp only [sumSize]
      ring
  simp only [Cache.addFreshHistory]
  split
  · exact hwf1.removeHist
  · exact hwf1

theorem wf_addUpdateHistory {c : Cache} {key value oldv : String}
    (hwf : Wf c) (hmain : lookup c.ll key = none)
    (hhist : lookup c.historyCache.ll key = some oldv) :
    Wf (c.addUpdateHistory key value oldv) := by
  have hkm : key ∉ keysOf c.ll := (lookup_eq_none_iff _ _).mp hmain
  have hkh : key ∈ keysOf c.historyCache.ll := mem_keysOf_of_lookup hhist
  have hkc : key ∈ keysOf c.historyCache.cnt := (hwf.cntDom key).mpr hkh
  constructor
  · exact hwf.mainNodup
  · show (keysOf (eraseKey c.historyCache.ll key ++ [(key, value)])).Nodup
    rw [keysOf_append, List.nodup_append]
    refine ⟨nodup_keysOf_eraseKey key hwf.histNodup, List.nodup_singleton _, ?_⟩
    intro x hx hx2
    simp only [keysOf_cons, keysOf_nil, List.mem_singleton] at hx2
    subst hx2
    exact not_mem_keysOf_eraseKey hwf.histNodup hx
  · show (keysOf (bump c.historyCache.cnt key)).Nodup
    rw [keysOf_bump_of_mem hkc]
    exact hwf.cntNodup
  · intro x
    show x ∈ keysOf (bump c.historyCache.cnt key) ↔
      x ∈ keysOf (eraseKey c.historyCache.ll key ++ [(key, value)])
    rw [keysOf_bump_of_mem hkc, keysOf_append]
    simp only [List.mem_append, keysOf_cons, keysOf_nil, List.mem_singleton]
    constructor
    · intro hx
      by_cases he : x = key
      · exact Or.inr he
      · exact Or.inl ((mem_keysOf_eraseKey hwf.histNodup).mpr
          ⟨(hwf.cntDom x).mp hx, he⟩)
    · rintro (hx | rfl)
      · exact (hwf.cntDom x).mpr (keysOf_eraseKey_subset _ _ hx)
      · exact hkc
  · intro x hx
    show x ∉ keysOf (eraseKey c.historyCache.ll key ++ [(key, value)])
    rw [keysOf_append]
    simp only [List.mem_append, keysOf_cons, keysOf_nil, List.mem_singleton]
    push_neg
    refine ⟨fun hm => hwf.disj x hx (keysOf_eraseKey_subset _ _ hm), ?_⟩
    intro he
    exact hkm (he ▸ hx)
  · exact hwf.mainBytes
  · show c.historyCache.useBytes + (value.length : Int) - (oldv.length : Int) =
      sumSize (eraseKey c.historyCache.ll key ++ [(key, value)])
    rw [sumSize_append, hwf.histBytes, sumSize_eraseKey hhist]
    simp only [sumSize, entrySize]
    ring

theorem wf_promote {c2 c' : Cache} {key value : String}
    (hwf : Wf c2) (hmain : lookup c2.ll key = none)
    (h : c2.promote key value = some c') : Wf c' := by
  unfold Cache.promote at h
  cases hadd : c2.AddToCache key value with
  | none =>
    simp only [hadd] at h
    exact Option.noConfusion h
  | some c3 =>
    simp only [hadd] at h
    obtain ⟨hpre, hhist, hmax, hacc, _⟩ := addToCache_spec hadd
    cases hl : lookup c3.historyCache.ll key with
    | none =>
      simp only [hl] at h
      exact Option.noConfusion h
    | some v1 =>
      simp only [hl] at h
      injection h with h
      subst h
      have hkm : key ∉ keysOf c2.ll := (lookup_eq_none_iff _ _).mp hmain
      have hl2 : lookup c2.historyCache.ll key = some v1 := by
        rw [← hhist]
        exact hl
      have main3nodup : (keysOf c3.ll).Nodup := by
        have hcons : (keysOf ((key, value) :: c2.ll)).Nodup := by
          simp only [keysOf_cons, List.nodup_cons]
          exact ⟨hkm, hwf.mainNodup⟩
        exact hcons.sublist ((hpre.map Prod.fst).sublist)
      have main3sub : keysOf c3.ll ⊆ key :: keysOf c2.ll := by
        intro x hx
        have h2 := ((hpre.map Prod.fst).subset) hx
        rw [List.map_cons] at h2
        exact h2
      constructor
      · exact main3nodup
      · show (keysOf (eraseKey c3.historyCache.ll key)).Nodup
        rw [hhist]
        exact nodup_keysOf_eraseKey key hwf.histNodup
      · show (keysOf (eraseKey c3.historyCache.cnt key)).Nodup
        rw [hhist]
        exact nodup_keysOf_eraseKey key hwf.cntNodup
      · intro x
        show x ∈ keysOf (eraseKey c3.historyCache.cnt key) ↔
          x ∈ keysOf (eraseKey c3.historyCache.ll key)
        rw [hhist, mem_keysOf_eraseKey hwf.cntNodup,
          mem_keysOf_eraseKey hwf.histNodup]
        exact and_congr (hwf.cntDom x) Iff.rfl
      · intro x hx
        show x ∉ keysOf (eraseKey c3.historyCache.ll key)
        rw [hhist]
        have hx2 := main3sub hx
        rw [List.mem_cons] at hx2
        rcases hx2 with rfl | hx2
        · exact not_mem_keysOf_eraseKey hwf.histNodup
        · exact fun hmem =>
            hwf.disj x hx2 (keysOf_eraseKey_subset _ _ hmem)
      · exact hacc hwf.mainBytes
      · show c3.historyCache.useBytes - entrySize key v1 =
          sumSize (eraseKey c3.historyCache.ll key)
        rw [hhist, hwf.histBytes, sumSize_eraseKey hl2]
        ring

theorem wf_Add {c c' : Cache} {key value : String}
    (hwf : Wf c) (h : c.Add key value = some c') : Wf c' := by
  simp only [Cache.Add] at h
  cases hmain : lookup c.ll key with
  | some oldv =>
    simp only [hmain] at h
    injection h with h
    subst h
    have hkm : key ∈ keysOf c.ll := mem_keysOf_of_lookup hmain
    constructor
    · show (keysOf ((key, value) :: eraseKey c.ll key)).Nodup
      simp only [keysOf_cons, List.nodup_cons]
      exact ⟨not_mem_keysOf_eraseKey hwf.mainNodup,
        nodup_keysOf_eraseKey key hwf.mainNodup⟩
    · exact hwf.histNodup
    · exact hwf.cntNodup
    · exact hwf.cntDom
    · intro x hx
      show x ∉ keysOf c.historyCache.ll
      simp only [keysOf_cons, List.mem_cons] at hx
      rcases hx with rfl | hx
      · exact hwf.disj x hkm
      · exact hwf.disj x (keysOf_eraseKey_subset _ _ hx)
    · show c.useBytes + (value.length : Int) - (oldv.length : Int) =
        sumSize ((key, value) :: eraseKey c.ll key)
      rw [hwf.mainBytes, sumSize_eraseKey hmain]
      simp only [sumSize, entrySize]
      ring
    · exact hwf.histBytes
  | none =>
    simp only [hmain] at h
    cases hh : lookup c.historyCache.ll key with
    | none =>
      simp only [hh] at h
      have hwf2 : Wf (c.addFreshHistory key value) :=
        wf_addFreshHistory hwf hmain hh
      have hm2 : lookup (c.addFreshHistory key value).ll key = none := by
        rw [(addFreshHistory_main c key value).1]
        exact hmain
      by_cases hth : (c.addFreshHistory key value).historyCache.k ≤
          cntGet (c.addFreshHistory key value).historyCache.cnt key
      · rw [if_pos hth] at h
        exact wf_promote hwf2 hm2 h
      · rw [if_neg hth] at h
        injection h with h
        subst h
        exact hwf2
    | some oldv =>
      simp only [hh] at h
      have hwf2 : Wf (c.addUpdateHistory key value oldv) :=
        wf_addUpdateHistory hwf hmain hh
      have hm2 : lookup (c.addUpdateHistory key value oldv).ll key = none :=
        hmain
      by_cases hth : (c.addUpdateHistory key value oldv).historyCache.k ≤
          cntGet (c.addUpdateHistory key value oldv).historyCache.cnt key
      · rw [if_pos hth] at h
        exact wf_promote hwf2 hm2 h
      · rw [if_neg hth] at h
        injection h with h
        subst h
        exact hwf2

theorem wf_Get {c c' : Cache} {key : String} {r : Option String × Bool}
    (hwf : Wf c) (h : c.Get key = some (r, c')) : Wf c' := by
  simp only [Cache.Get] at h
  cases hmain : lookup c.ll key with
  | some v =>
    simp only [hmain] at h
    injection h with h
    have h2 := congrArg Prod.snd h
    simp only [] at h2
    subst h2
    have hkm : key ∈ keysOf c.ll := mem_keysOf_of_lookup hmain
    constructor
    · show (keysOf ((key, v) :: eraseKey c.ll key)).Nodup
      simp only [keysOf_cons, List.nodup_cons]
      exact ⟨not_mem_keysOf_eraseKey hwf.mainNodup,
        nodup_keysOf_eraseKey key hwf.mainNodup⟩
    · exact hwf.histNodup
    · exact hwf.cntNodup
    · exact hwf.cntDom
    · intro x hx
      show x ∉ keysOf c.historyCache.ll
      simp only [keysOf_cons, List.mem_cons] at hx
      rcases hx with rfl | hx
      · exact hwf.disj x hkm
      · exact hwf.disj x (keysOf_eraseKey_subset _ _ hx)
    · show c.useBytes = sumSize ((key, v) :: eraseKey c.ll key)
      rw [hwf.mainBytes, sumSize_eraseKey hmain]
      simp only [sumSize]
    · exact hwf.histBytes
  | none =>
    simp only [hmain] at h
    cases hh : lookup c.historyCache.ll key with
    | none =>
      simp only [hh] at h
      injection h with h
      have h2 := congrArg Prod.snd h
      simp only [] at h2
      subst h2
      exact hwf
    | some v =>
      simp only [hh] at h
      by_cases hth : c.historyCache.k ≤ cntGet (bump c.historyCache.cnt key) key
      · rw [if_pos hth] at h
        exact absurd h (by simp)
      · rw [if_neg hth] at h
        injection h with h
        have h2 := congrArg Prod.snd h
        simp only [] at h2
        subst h2
        have hkh : key ∈ keysOf c.historyCache.ll := mem_keysOf_of_lookup hh
        have hkc : key ∈ keysOf c.historyCache.cnt := (hwf.cntDom key).mpr hkh
        constructor
        · exact hwf.mainNodup
        · show (keysOf (eraseKey c.historyCache.ll key ++ [(key, v)])).Nodup
          rw [keysOf_append, List.nodup_append]
          refine ⟨nodup_keysOf_eraseKey key hwf.histNodup,
            List.nodup_singleton _, ?_⟩
          intro x hx hx2
          simp only [keysOf_cons, keysOf_nil, List.mem_singleton] at hx2
          subst hx2
          exact not_mem_keysOf_eraseKey hwf.histNodup hx
        · show (keysOf (bump c.historyCache.cnt key)).Nodup
          rw [keysOf_bump_of_mem hkc]
          exact hwf.cntNodup
        · intro x
          show x ∈ keysOf (bump c.historyCache.cnt key) ↔
            x ∈ keysOf (eraseKey c.historyCache.ll key ++ [(key, v)])
          rw [keysOf_bump_of_mem hkc, keysOf_append]
          simp only [List.mem_append, keysOf_cons, keysOf_nil, List.mem_singleton]
          constructor
          · intro hx
            by_cases he : x = key
            · exact Or.inr he
            · exact Or.inl ((mem_keysOf_eraseKey hwf.histNodup).mpr
                ⟨(hwf.cntDom x).mp hx, he⟩)
          · rintro (hx | rfl)
            · exact (hwf.cntDom x).mpr (keysOf_eraseKey_subset _ _ hx)
            · exact hkc
        · intro x hx
          show x ∉ keysOf (eraseKey c.historyCache.ll key ++ [(key, v)])
          rw [keysOf_append]
          simp only [List.mem_append, keysOf_cons, keysOf_nil, List.mem_singleton]
          push_neg
          refine ⟨fun hm => hwf.disj x hx (keysOf_eraseKey_subset _ _ hm), ?_⟩
          intro he
          exact hwf.disj x hx (he ▸ hkh)
        · exact hwf.mainBytes
        · show c.historyCache.useBytes =
            sumSize (eraseKey c.historyCache.ll key ++ [(key, v)])
          rw [sumSize_append, hwf.histBytes, sumSize_eraseKey hh]
          simp only [sumSize]
          ring

theorem wf_applyOp {c c' : Cache} {op : Op}
    (hwf : Wf c) (h : applyOp c op = some c') : Wf c' := by
  cases op with
  | add key value => exact wf_Add hwf h
  | get key =>
    simp only [applyOp] at h
    cases hg : c.Get key with
    | none =>
      simp only [hg] at h
      exact Option.noConfusion h
    | some p =>
      obtain ⟨r, c2⟩ := p
      simp only [hg] at h
      injection h with h
      subst h
      exact wf_Get hwf hg

theorem wf_run : ∀ (ops : List Op) (c c' : Cache),
    Wf c → run c ops = some c' → Wf c' := by
  intro ops
  induction ops with
  | nil =>
    intro c c' hwf h
    simp only [run] at h
    injection h with h
    subst h
    exact hwf
  | cons op rest ih =>
    intro c c' hwf h
    simp only [run] at h
    cases ha : applyOp c op with
    | none =>
      simp only [ha] at h
      exact Option.noConfusion h
    | some c1 =>
      simp only [ha] at h
      exact ih c1 c' (wf_applyOp hwf ha) h

theorem budget_Get {c c' : Cache} {key : String} {r : Option String × Bool}
    (h : c.Get key = some (r, c')) :
    c'.maxBytes = c.maxBytes ∧ c'.useBytes = c.useBytes ∧
    (c.useBytes = sumSize c.ll → c'.useBytes = sumSize c'.ll) := by
  simp only [Cache.Get] at h
  cases hmain : lookup c.ll key with
  | some v =>
    simp only [hmain] at h
    injection h with h
    have h2 := congrArg Prod.snd h
    simp only [] at h2
    subst h2
    refine ⟨rfl, rfl, fun ha => ?_⟩
    show c.useBytes = sumSize ((key, v) :: eraseKey c.ll key)
    rw [ha, sumSize_eraseKey hmain]
    simp only [sumSize]
  | none =>
    simp only [hmain] at h
    cases hh : lookup c.historyCache.ll key with
    | none =>
      simp only [hh] at h
      injection h with h
      have h2 := congrArg Prod.snd h
      simp only [] at h2
      subst h2
      exact ⟨rfl, rfl, fun ha => ha⟩
    | some v =>
      simp only [hh] at h
      by_cases hth : c.historyCache.k ≤ cntGet (bump c.historyCache.cnt key) key
      · rw [if_pos hth] at h
        exact absurd h (by simp)
      · rw [if_neg hth] at h
        injection h with h
        have h2 := congrArg Prod.snd h
        simp only [] at h2
        subst h2
        exact ⟨rfl, rfl, fun ha => ha⟩

theorem budget_promote {c2 c' : Cache} {key value : String}
    (hacc : c2.useBytes = sumSize c2.ll) (hmax : 0 < c2.maxBytes)
    (h : c2.promote key value = some c') :
    c'.maxBytes = c2.maxBytes ∧ c'.useBytes = sumSize c'.ll ∧
    c'.useBytes ≤ c'.maxBytes := by
  unfold Cache.promote at h
  cases hadd : c2.AddToCache key value with
  | none =>
    simp only [hadd] at h
    exact Option.noConfusion h
  | some c3 =>
    simp only [hadd] at h
    obtain ⟨_, _, hmax3, hacc3, hend⟩ := addToCache_spec hadd
    have hb3 : c3.useBytes ≤ c3.maxBytes := by
      by_contra hlt
      push_neg at hlt
      exact hend ⟨by rw [hmax3]; omega, hlt⟩
    cases hl : lookup c3.historyCache.ll key with
    | none =>
      simp only [hl] at h
      exact Option.noConfusion h
    | some v1 =>
      simp only [hl] at h
      injection h with h
      subst h
      exact ⟨hmax3, hacc3 hacc, hb3⟩

theorem budget_Add {c c' : Cache} {key value : String}
    (hmain : lookup c.ll key = none)
    (hacc : c.useBytes = sumSize c.ll)
    (hmax : 0 < c.maxBytes) (hb : c.useBytes ≤ c.maxBytes)
    (h : c.Add key value = some c') :
    c'.maxBytes = c.maxBytes ∧ c'.useBytes = sumSize c'.ll ∧
    c'.useBytes ≤ c'.maxBytes := by
  simp only [Cache.Add, hmain] at h
  cases hh : lookup c.historyCache.ll key with
  | none =>
    simp only [hh] at h
    obtain ⟨hll, huse, hmx, _⟩ := addFreshHistory_main c key value
    by_cases hth : (c.addFreshHistory key value).historyCache.k ≤
        cntGet (c.addFreshHistory key value).historyCache.cnt key
    · rw [if_pos hth] at h
      have hacc2 : (c.addFreshHistory key value).useBytes =
          sumSize (c.addFreshHistory key value).ll := by
        rw [huse, hll]
        exact hacc
      have hmax2 : 0 < (c.addFreshHistory key value).maxBytes := by
        rw [hmx]
        exact hmax
      obtain ⟨h1, h2, h3⟩ := budget_promote hacc2 hmax2 h
      exact ⟨h1.trans hmx, h2, h3⟩
    · rw [if_neg hth] at h
      injection h with h
      subst h
      refine ⟨hmx, ?_, ?_⟩
      · rw [huse, hll]
        exact hacc
      · rw [huse, hmx]
        exact hb
  | some oldv =>
    simp only [hh] at h
    by_cases hth : (c.addUpdateHistory key value oldv).historyCache.k ≤
        cntGet (c.addUpdateHistory key value oldv).historyCache.cnt key
    · rw [if_pos hth] at h
      have hacc2 : (c.addUpdateHistory key value oldv).useBytes =
          sumSize (c.addUpdateHistory key value oldv).ll := hacc
      have hmax2 : 0 < (c.addUpdateHistory key value oldv).maxBytes := hmax
      obtain ⟨h1, h2, h3⟩ := budget_promote hacc2 hmax2 h
      exact ⟨h1, h2, h3⟩
    · rw [if_neg hth] at h
      injection h with h
      subst h
      exact ⟨rfl, hacc, hb⟩

theorem budget_run : ∀ (ops : List Op) (c : Cache),
    0 < c.maxBytes → c.useBytes = sumSize c.ll → c.useBytes ≤ c.maxBytes →
    addsOkB c ops = true → ∀ c', run c ops = some c' →
    c'.useBytes ≤ c'.maxBytes := by
  intro ops
  induction ops with
  | nil =>
    intro c hmax hacc hb hok c' h
    simp only [run] at h
    injection h with h
    subst h
    exact hb
  | cons op rest ih =>
    intro c hmax hacc hb hok c' h
    simp only [run] at h
    cases ha : applyOp c op with
    | none =>
      simp only [ha] at h
      exact Option.noConfusion h
    | some c1 =>
      simp only [ha] at h
      simp only [addsOkB, ha, Bool.and_eq_true] at hok
      cases op with
      | add key value =>
        have hfresh : lookup c.ll key = none := by
          have := hok.1
          simp only [Option.isNone_iff_eq_none] at this
          exact this
        have ha2 : c.Add key value = some c1 := ha
        obtain ⟨h1, h2, h3⟩ := budget_Add hfresh hacc hmax hb ha2
        exact ih c1 (by rw [h1]; exact hmax) h2 h3 hok.2 c' h
      | get key =>
        have ha2 : (match c.Get key with
            | none => none
            | some (_, cg) => some cg) = some c1 := ha
        cases hg : c.Get key with
        | none =>
          rw [hg] at ha2
          exact Option.noConfusion ha2
        | some p =>
          obtain ⟨rg, cg⟩ := p
          rw [hg] at ha2
          injection ha2 with ha2
          subst ha2
          obtain ⟨h1, h2, h3⟩ := budget_Get hg
          exact ih cg (by rw [h1]; exact hmax) (h3 hacc)
            (by rw [h1, h2]; exact hb) hok.2 c' h

/-! Claim theorems. -/

/-- C1 (counterexample): the budget invariant fails as stated.  With
`New 10 2` (both budgets 10, k = 2) the five listed Add calls complete,
yet afterwards the main queue holds 11 bytes against its nonzero budget
of 10 (an in-place replacement by a larger value runs no eviction
check), and the history queue holds 12 bytes against its nonzero budget
of 10 (a fresh insert evicts at most one oldest entry). -/
theorem c1_budget_claim_counterexample :
    run (New 10 2) [Op.add "a" "1234567", Op.add "a" "1234567",
        Op.add "a" "1234567890", Op.add "b" "c", Op.add "dddddd" "eeeeee"] =
      some { maxBytes := 10, useBytes := 11, ll := [("a", "1234567890")],
             historyCache := { k := 2, maxBytes := 10, useBytes := 12,
                               ll := [("dddddd", "eeeeee")],
                               cnt := [("dddddd", 1)] },
             evicted := [("b", "c")] } ∧
    ((10 : Int) ≠ 0 ∧ (10 : Int) < 11) ∧ ((10 : Int) ≠ 0 ∧ (10 : Int) < 12) := by
  refine ⟨rfl, ⟨?_, ?_⟩, ?_, ?_⟩ <;> decide

/-- C1 (amended): for every sequence of Add/Get calls on a cache built
by `New` with positive budget and k ≥ 1, in which no Add call targets a
key resident in the main queue at the time of the call, after each
completed call the main queue useBytes is at most its maxBytes.  (The
history queue bound does not hold, and neither does the main bound under
in-place replacement, as the counterexample shows.) -/
theorem c1_budget_invariant_amended (maxB k : Int) (ops : List Op) (c : Cache)
    (hmax : 0 < maxB) (hk : 1 ≤ k)
    (hok : addsOkB (New maxB k) ops = true)
    (hrun : run (New maxB k) ops = some c) :
    c.useBytes ≤ c.maxBytes :=
  budget_run ops (New maxB k) hmax rfl (le_of_lt hmax) hok c hrun

/-- C1 (witness for the amended theorem): a concrete two-call sequence
satisfying the hypotheses. -/
theorem c1_budget_invariant_amended_witness :
    ({ maxBytes := 10, useBytes := 3, ll := [("a", "bb")],
       historyCache := { k := 1, maxBytes := 10, useBytes := 0,
                         ll := [], cnt := [] },
       evicted := [] } : Cache).useBytes ≤
      ({ maxBytes := 10, useBytes := 3, ll := [("a", "bb")],
         historyCache := { k := 1, maxBytes := 10, useBytes := 0,
                           ll := [], cnt := [] },
         evicted := [] } : Cache).maxBytes :=
  c1_budget_invariant_amended 10 1 [Op.add "a" "bb", Op.get "a"] _
    (by decide) (by decide) (by rfl) (by rfl)

/-- C2: with k = 2 and unbounded budgets, after `Add("x","v")` the key
sits in the history queue with count 1; `Get("x")` raises the count to
the threshold, and the promotion step calls `AddToCache` with the
still-unassigned named return value (a nil `Value`), whose `Len()` call
panics — the call never completes and "x" is never promoted with "v". -/
theorem c2_get_promotion_nil_value_panics :
    (New 0 2).Add "x" "v" =
      some { maxBytes := 0, useBytes := 0, ll := [],
             historyCache := { k := 2, maxBytes := 0, useBytes := 2,
                               ll := [("x", "v")], cnt := [("x", 1)] },
             evicted := [] } ∧
    ({ maxBytes := 0, useBytes := 0, ll := [],
       historyCache := { k := 2, maxBytes := 0, useBytes := 2,
                         ll := [("x", "v")], cnt := [("x", 1)] },
       evicted := [] } : Cache).Get "x" = none :=
  ⟨rfl, rfl⟩

/-- C5: with maxBytes = 10, k = 1, adding key1→123456, k2→k2, k3→k3,
k4→k4 in order fires the eviction callback exactly twice, first for
key1 and then for k2, in that order. -/
theorem c5_onEvicted_scenario :
    (run (New 10 1) [Op.add "key1" "123456", Op.add "k2" "k2",
        Op.add "k3" "k3", Op.add "k4" "k4"]).map Cache.evicted =
      some [("key1", "123456"), ("k2", "k2")] := rfl

/-- C6: after every completed sequence of Add/Get calls from a fresh
cache, no key is simultaneously present in the main queue and in the
history queue. -/
theorem c6_disjointness_invariant (maxB k : Int) (ops : List Op) (c : Cache)
    (key : String) (hrun : run (New maxB k) ops = some c) :
    ¬(key ∈ keysOf c.ll ∧ key ∈ keysOf c.historyCache.ll) := by
  rintro ⟨h1, h2⟩
  exact (wf_run ops (New maxB k) c (wf_New maxB k) hrun).disj key h1 h2

/-- C6 (witness): the invariant instantiated at a concrete one-call
sequence. -/
theorem c6_disjointness_invariant_witness :
    ¬("x" ∈ keysOf afterAddX.ll ∧ "x" ∈ keysOf afterAddX.historyCache.ll) :=
  c6_disjointness_invariant 0 2 [Op.add "x" "v"] afterAddX "x" rfl

/-- C7: with k = 1 and unlimited budgets, `Add("key1","123")` then
`Get("key1")` returns ("123", true), and a following `Get("key2")`
reports not found. -/
theorem c7_roundtrip_scenario :
    ((New 0 1).Add "key1" "123").bind
        (fun c => (c.Get "key1").map (fun r => r.1)) =
      some (some "123", true) ∧
    ((New 0 1).Add "key1" "123").bind
        (fun c => ((c.Get "key1").map Prod.snd).bind
          (fun c2 => (c2.Get "key2").map (fun r => r.1))) =
      some (none, false) :=
  ⟨rfl, rfl⟩

/-- C8: after every completed sequence of Add/Get calls from a fresh
cache, a key has an entry in the history hit-counter map exactly when it
is present in the history queue. -/
theorem c8_counter_domain_invariant (maxB k : Int) (ops : List Op) (c : Cache)
    (key : String) (hrun : run (New maxB k) ops = some c) :
    key ∈ keysOf c.historyCache.cnt ↔ key ∈ keysOf c.historyCache.ll :=
  (wf_run ops (New maxB k) c (wf_New maxB k) hrun).cntDom key

/-- C8 (witness): the invariant instantiated at a concrete one-call
sequence. -/
theorem c8_counter_domain_invariant_witness :
    ("y" ∈ keysOf afterAddY.historyCache.cnt ↔
      "y" ∈ keysOf afterAddY.historyCache.ll) :=
  c8_counter_domain_invariant 0 3 [Op.add "y" "w"] afterAddY "y" rfl

/-- C10: an Add on a key resident in the main queue only replaces that
entry value, adjusts main useBytes by the signed value-length delta and
moves the entry to the front; the history queue, its counters, every
other main entry and the eviction log are unchanged, and the call always
completes, whatever the new value size. -/
theorem c10_add_main_resident_frame (c : Cache) (key value oldv : String)
    (h : lookup c.ll key = some oldv) :
    c.Add key value =
      some { maxBytes := c.maxBytes
             useBytes := c.useBytes + (value.length : Int) - (oldv.length : Int)
             ll := (key, value) :: eraseKey c.ll key
             historyCache := c.historyCache
             evicted := c.evicted } := by
  simp only [Cache.Add, h]

/-- C10 (witness): the frame property instantiated at a concrete
main-resident key, with a strictly larger replacement value. -/
theorem c10_add_main_resident_frame_witness :
    ({ maxBytes := 10, useBytes := 3, ll := [("a", "xy")],
       historyCache := { k := 1, maxBytes := 10, useBytes := 0,
                         ll := [], cnt := [] },
       evicted := [] } : Cache).Add "a" "zzzz" =
      some { maxBytes := 10, useBytes := 5, ll := [("a", "zzzz")],
             historyCache := { k := 1, maxBytes := 10, useBytes := 0,
                               ll := [], cnt := [] },
             evicted := [] } :=
  c10_add_main_resident_frame _ "a" "zzzz" "xy" rfl

end lru

namespace geecache

/-- C3: `ServeHTTP` panics on any request whose path does not start with
the configured base path, instead of answering with a client-error
response: the first statement of the handler is a `panic` call. -/
theorem c3_serveHTTP_bad_path_panics :
    ServeHTTP "/_geecache/" (fun _ => none) "/evil/scores/Tom" =
      ServeResult.panicked "HTTPPool seving unexcepted path: /evil/scores/Tom" := by
  decide

/-- C4: the URL built by the remote-fetch client concatenates the base
URL and the two escaped segments with no path separator between group
and key, unlike the URL the specification prescribes. -/
theorem c4_requestURL_missing_separator :
    httpGetter.requestURL { baseURL := "http://peer:8001/_geecache/" }
        "scores" "Tom" = "http://peer:8001/_geecache/scoresTom" ∧
    specRequestURL { baseURL := "http://peer:8001/_geecache/" }
        "scores" "Tom" = "http://peer:8001/_geecache/scores/Tom" ∧
    httpGetter.requestURL { baseURL := "http://peer:8001/_geecache/" }
        "scores" "Tom" ≠
      specRequestURL { baseURL := "http://peer:8001/_geecache/" }
        "scores" "Tom" := by
  refine ⟨?_, ?_, ?_⟩ <;> decide

/-- C9: `get` on a shard on which `add` has never been called returns
the zero ByteView and false, and leaves the lazily initialised cache
field nil. -/
theorem c9_get_unconstructed_shard (cacheBytes : Int) (key : String) :
    cache.get (cache.empty cacheBytes) key =
      some ((⟨""⟩, false), cache.empty cacheBytes) := rfl

end geecache
